import Mathlib

/-
Verification of the adaptation manager (`adaptation_manager.py`).

The Python module keeps a registry of adaptation offers and resolves, via a
priority-first search, whether an object can be adapted to a target protocol.
This file gives a shallow embedding of the module and proves / refutes the
specification's claims about it.

Modelling conventions:
* Python classes (both concrete types and protocols) are identified by `Nat`
  labels.  `inspect.getmro` is a field of `World` (the class itself first,
  then its ancestors, most-derived first), and `issubclass a b` is membership
  of `b` in `a`'s MRO — which is exactly CPython's subclass relation for
  new-style classes.
* Python objects are `PyObj`; the value `PyObj.pynone` is Python's `None`,
  whose class (`NoneType`) is the label `0` in this embedding.
* Adapter factories are identified by `Nat` labels, interpreted by
  `World.applyFactory`; a factory result of `pynone` is Python's `None`,
  i.e. the factory declined the conversion.
* Exceptions: `adapt` either returns a value (`AdaptOutcome.ok`) or raises
  `AdaptationError` (`AdaptOutcome.raised`).
-/

/-- A Python object.  `pynone` is Python's `None`; `mk oid ty` is any other
object, with identity `oid` and class label `ty`. -/
inductive PyObj where
  | pynone : PyObj
  | mk (oid : Nat) (ty : Nat) : PyObj
deriving DecidableEq, Repr

/-- Python's `type(obj)`.  `NoneType` is the class label `0`. -/
def typeOf : PyObj → Nat
  | .pynone => 0
  | .mk _ ty => ty

/-- Modelled from the spec: an adaptation offer is "a tuple (factory, source
capability, target capability)" — the `AdaptationOffer` class itself lives in
`apptools.adaptation.adaptation_offer`, which is not among the sources; the
manager only reads these three attributes.  `factory` is `none` when the
offer was built with a null factory. -/
structure Offer where
  factory : Option Nat
  from_protocol : Nat
  to_protocol : Nat
deriving DecidableEq, Repr

/-- The ambient Python class structure and factory behaviour that the
adaptation manager consults. -/
structure World where
  /-- `inspect.getmro`: the class itself first, then its ancestors. -/
  mro : Nat → List Nat
  /-- The class label of `traits.api.Interface`. -/
  interfaceId : Nat
  /-- The `__implements__` attribute of a class, when present. -/
  implementsOf : Nat → Option Nat
  /-- Interpretation of factory labels.  A result of `pynone` models a
  factory returning `None` (the conversion declined). -/
  applyFactory : Nat → PyObj → PyObj

/-- Python's `issubclass(a, b)`: for new-style classes this is membership of
`b` in `a.__mro__`. -/
def issubclass (w : World) (a b : Nat) : Bool :=
  decide (b ∈ w.mro a)

/-- `AdaptationManager.provides_protocol` (adaptation_manager.py, lines
47-68): if `protocol` is a traits `Interface`, check the `__implements__`
attribute against it; otherwise `protocol` is a class and we check
`issubclass(type_, protocol)`. -/
def provides_protocol (w : World) (type_ protocol : Nat) : Bool :=
  if issubclass w protocol w.interfaceId then
    match w.implementsOf type_ with
    | some impl => issubclass w impl protocol
    | none => false
  else
    issubclass w type_ protocol

/-- `AdaptationManager.mro_distance_to_protocol` (lines 21-45): `none` when
`from_type` does not provide `to_protocol`; otherwise the number of leading
entries of `getmro(from_type)[1:]` that still provide `to_protocol` (the walk
breaks at the first superclass that does not). -/
def mro_distance_to_protocol (w : World) (from_type to_protocol : Nat) : Option Nat :=
  if provides_protocol w from_type to_protocol then
    some (((w.mro from_type).drop 1).takeWhile
      (fun t => provides_protocol w t to_protocol)).length
  else
    none

/-- Modelled from the spec: `AdaptationOffer.adapt` (defined in
`apptools.adaptation.adaptation_offer`, not among the sources) invokes the
offer's factory on the object; the factory "produce[s] either an adapted
object satisfying `target capability`, or a null result".  An absent (null)
factory cannot produce a result. -/
def applyOffer (w : World) (offer : Offer) (obj : PyObj) : PyObj :=
  match offer.factory with
  | some f => w.applyFactory f obj
  | none => .pynone

/-- The state of an `AdaptationManager`: its list of registered offers. -/
structure AdaptationManager where
  _adaptation_offers : List Offer
deriving Repr

/-- `AdaptationManager.register_adaptation_offer` (lines 109-114): append the
offer to the registry. -/
def register_adaptation_offer (mgr : AdaptationManager) (offer : Offer) :
    AdaptationManager :=
  { mgr with _adaptation_offers := mgr._adaptation_offers ++ [offer] }

/-- `AdaptationManager.register_adapter_factory` (lines 116-134): build an
`AdaptationOffer` from the arguments and register it. -/
def register_adapter_factory (mgr : AdaptationManager) (factory : Option Nat)
    (from_protocol to_protocol : Nat) : AdaptationManager :=
  register_adaptation_offer mgr
    { factory := factory, from_protocol := from_protocol, to_protocol := to_protocol }

/-- An outgoing edge of the implicit adaptation graph, as built by
`_get_outgoing_edges`: the Python value is the pair `(mro_distance, offer)`;
`idx` additionally records the offer's position in the registry, which is the
identity used for the visited set (each registered offer is a distinct
Python object). -/
structure Edge where
  dist : Nat
  idx : Nat
  offer : Offer
deriving DecidableEq, Repr

/-- Registry traversal underlying `_get_outgoing_edges`, carrying the
position `i` of the first remaining offer. -/
def outgoingEdgesAux (w : World) (obj : PyObj) (visited : List Nat) :
    Nat → List Offer → List Edge
  | _, [] => []
  | i, offer :: rest =>
    if i ∈ visited then outgoingEdgesAux w obj visited (i + 1) rest
    else
      match mro_distance_to_protocol w (typeOf obj) offer.from_protocol with
      | none => outgoingEdgesAux w obj visited (i + 1) rest
      | some d => ⟨d, i, offer⟩ :: outgoingEdgesAux w obj visited (i + 1) rest

/-- `AdaptationManager._get_outgoing_edges` (lines 226-244): for every
registered offer not in the visited set whose `from_protocol` the current
object's type provides, emit the edge `(mro_distance, offer)`. -/
def _get_outgoing_edges (w : World) (offers : List Offer) (current_obj : PyObj)
    (visited : List Nat) : List Edge :=
  outgoingEdgesAux w current_obj visited 0 offers

/-- `_cmp_weight_then_from_protocol_specificity` (lines 247-265).  Note: the
source compares `issubclass(edge_1.from_protocol, edge_2.from_protocol)` in
BOTH branches after the distances compare equal (lines 260-263), so the
second branch is unreachable; the comparator is reproduced here exactly as
written. -/
def _cmp_weight_then_from_protocol_specificity (w : World) (edge_1 edge_2 : Edge) :
    Ordering :=
  if edge_1.dist < edge_2.dist then .lt
  else if edge_1.dist > edge_2.dist then .gt
  else if issubclass w edge_1.offer.from_protocol edge_2.offer.from_protocol then .lt
  else if issubclass w edge_1.offer.from_protocol edge_2.offer.from_protocol then .gt
  else .eq

/-- Insert an edge into an already-sorted list of edges, before the first
element it does not compare greater than. -/
def insertEdge (w : World) (e : Edge) : List Edge → List Edge
  | [] => [e]
  | f :: fs =>
    if _cmp_weight_then_from_protocol_specificity w e f = .gt then
      f :: insertEdge w e fs
    else
      e :: f :: fs

/-- `edges.sort(cmp=_cmp_weight_then_from_protocol_specificity)` (line 201):
CPython's `list.sort` is a stable sort with respect to the comparator (and
its output is unspecified when the comparator is not a consistent ordering);
it is modelled here as a stable insertion sort. -/
def sortEdges (w : World) : List Edge → List Edge
  | [] => []
  | e :: es => insertEdge w e (sortEdges w es)

/-- An entry of the priority queue `offer_queue`: cumulative weight
`(adapter hops, cumulative mro distance)`, insertion sequence number, and the
candidate object. -/
structure QEntry where
  weight : Nat × Nat
  count : Nat
  obj : PyObj
deriving DecidableEq, Repr

/-- The priority key of a queue entry, as compared by `heapq`: the weight
pair first, then the sequence counter (the object is never compared, since
counters are unique). -/
def entryKey (e : QEntry) : (Nat × Nat) × Nat :=
  (e.weight, e.count)

/-- Lexicographic comparison of priority keys, as Python compares the tuples
`((hops, mro_weight), count)`. -/
def keyLt (a b : (Nat × Nat) × Nat) : Bool :=
  decide (a.1.1 < b.1.1) ||
    (decide (a.1.1 = b.1.1) &&
      (decide (a.1.2 < b.1.2) ||
        (decide (a.1.2 = b.1.2) && decide (a.2 < b.2))))

/-- `heappop`: remove and return the queue entry whose key is minimal.  The
keys of distinct entries are distinct in every reachable queue (sequence
counters are unique), so the minimum is unique and a list model of the heap
is observationally equivalent. -/
def popMin : List QEntry → Option (QEntry × List QEntry)
  | [] => none
  | e :: es =>
    match popMin es with
    | none => some (e, [])
    | some (m, rest) =>
      if keyLt (entryKey m) (entryKey e) then some (m, e :: rest)
      else some (e, es)

/-- The inner `for mro_distance, offer in edges` loop of `_adapt`
(lines 208-222): apply each offer's factory to the popped object; a `None`
result skips the offer; a non-`None` result marks the offer visited, returns
it if it provides the target protocol, and otherwise pushes a new queue
entry with weight `(hops + 1, mro_weight + mro_distance)` and the next
sequence number. -/
def processEdges (w : World) (toP : Nat) (pw : Nat × Nat) (obj : PyObj) :
    List Edge → List Nat → Nat → Sum PyObj (List QEntry × List Nat × Nat)
  | [], visited, counter => .inr ([], visited, counter)
  | e :: es, visited, counter =>
    let adapter := applyOffer w e.offer obj
    if adapter = .pynone then
      processEdges w toP pw obj es visited counter
    else
      let visited' := visited ++ [e.idx]
      if provides_protocol w (typeOf adapter) toP then .inl adapter
      else
        match processEdges w toP pw obj es visited' (counter + 1) with
        | .inl a => .inl a
        | .inr (entries, v', c') =>
          .inr (⟨(pw.1 + 1, pw.2 + e.dist), counter, adapter⟩ :: entries, v', c')

/-- The `while len(offer_queue) > 0` loop of `_adapt` (lines 194-224),
with an explicit iteration budget `fuel` (shown sufficient below: each
iteration pops one entry and every push is matched by a fresh offer entering
the visited set, so `|offers| + 1` iterations always suffice).  The second
component of the result instruments the loop, recording the priority key of
each popped entry; it does not influence the computation. -/
def adaptLoopAux (w : World) (offers : List Offer) (toP : Nat) :
    Nat → List QEntry → List Nat → Nat → PyObj × List ((Nat × Nat) × Nat)
  | 0, _, _, _ => (.pynone, [])
  | fuel + 1, queue, visited, counter =>
    match popMin queue with
    | none => (.pynone, [])
    | some (e, rest) =>
      let edges := sortEdges w (_get_outgoing_edges w offers e.obj visited)
      match processEdges w toP e.weight e.obj edges visited counter with
      | .inl adapter => (adapter, [entryKey e])
      | .inr (newEntries, visited', counter') =>
        let r := adaptLoopAux w offers toP fuel (rest ++ newEntries) visited' counter'
        (r.1, entryKey e :: r.2)

/-- `AdaptationManager._adapt` (lines 150-224): run the search from the
initial queue `[((0, 0), 0, adaptee)]` with an empty visited set and the
counter at `1`; returns `pynone` (Python `None`) when no chain is found. -/
def _adapt (w : World) (mgr : AdaptationManager) (adaptee : PyObj)
    (to_protocol : Nat) : PyObj :=
  (adaptLoopAux w mgr._adaptation_offers to_protocol
    (mgr._adaptation_offers.length + 1) [⟨(0, 0), 0, adaptee⟩] [] 1).1

/-- The instrumentation of the search loop: the priority keys of the popped
queue entries, in pop order. -/
def adaptTrace (w : World) (mgr : AdaptationManager) (adaptee : PyObj)
    (to_protocol : Nat) : List ((Nat × Nat) × Nat) :=
  (adaptLoopAux w mgr._adaptation_offers to_protocol
    (mgr._adaptation_offers.length + 1) [⟨(0, 0), 0, adaptee⟩] [] 1).2

/-- Outcome of `AdaptationManager.adapt`: a returned value, or a raised
`AdaptationError`. -/
inductive AdaptOutcome where
  | ok (result : PyObj) : AdaptOutcome
  | raised : AdaptOutcome
deriving DecidableEq, Repr

/-- `AdaptationManager.adapt` (lines 77-107).  `default = none` models the
`AdaptationError` sentinel (no default supplied); `default = some d` models a
supplied default (which may itself be Python `None`, i.e. `pynone`). -/
def adapt (w : World) (mgr : AdaptationManager) (adaptee : PyObj)
    (to_protocol : Nat) (default : Option PyObj) : AdaptOutcome :=
  let result :=
    if provides_protocol w (typeOf adaptee) to_protocol then adaptee
    else _adapt w mgr adaptee to_protocol
  if result = .pynone then
    match default with
    | none => .raised
    | some d => .ok d
  else
    .ok result

/-- `AdaptationManager.supports_protocol` (lines 136-144):
`adapt(obj, protocol, None) is not None`.  The `raised` branch is
unreachable because a default is supplied. -/
def supports_protocol (w : World) (mgr : AdaptationManager) (obj : PyObj)
    (protocol : Nat) : Bool :=
  match adapt w mgr obj protocol (some .pynone) with
  | .ok x => decide (x ≠ .pynone)
  | .raised => false

/-- The number of registry positions not yet in the visited set; the measure
that bounds the remaining successful offer applications of a search. -/
def unvisitedCount (n : Nat) (visited : List Nat) : Nat :=
  ((Finset.range n).filter (fun i => i ∉ visited)).card

/-- A concrete class structure used to evaluate the definitions: class `7`
derives from `3`, class `8` derives from `0` (the class of `None`), class
`11` derives from `10`; every other class stands alone.  Nothing is a traits
`Interface` (the `Interface` class is the isolated label `99`).  Factory `1`
always produces an object of class `7`; factory `2` always produces an
object of class `8`; every other factory declines. -/
def wA : World where
  mro := fun t =>
    if t = 7 then [7, 3] else if t = 8 then [8, 0] else if t = 11 then [11, 10] else [t]
  interfaceId := 99
  implementsOf := fun _ => none
  applyFactory := fun f x =>
    if f = 1 then .mk 1 7
    else if f = 2 then .mk 2 8
    else if f = 3 then (if x = .mk 2 8 then .mk 3 7 else .pynone)
    else .pynone

/-- A manager with an empty registry. -/
def mgrEmpty : AdaptationManager := ⟨[]⟩

/-- A manager with a single offer adapting protocol `0` to protocol `3` via
factory `1` (which produces an object of class `7`, and `7` provides `3`). -/
def mgrA : AdaptationManager := ⟨[⟨some 1, 0, 3⟩]⟩

/-- A manager with a single offer adapting protocol `0` to protocol `0` via
factory `2` (which produces an object of class `8`, and `8` provides `0`). -/
def mgrB : AdaptationManager := ⟨[⟨some 2, 0, 0⟩]⟩

/-- A manager holding a two-step chain towards protocol `3` (offers `0` and
`1`: factory `2` then factory `3`) together with a one-step chain (offer `2`:
factory `1`), to exercise the shortest-chain preference. -/
def mgrC : AdaptationManager :=
  ⟨[⟨some 2, 0, 0⟩, ⟨some 3, 0, 3⟩, ⟨some 1, 0, 3⟩]⟩

/-- The comparator returns `gt` exactly on strictly greater distance: the
specificity branch at lines 260-263 repeats the same test and can therefore
never reach its `return 1`. -/
theorem cmp_gt_iff (w : World) (e1 e2 : Edge) :
    _cmp_weight_then_from_protocol_specificity w e1 e2 = .gt ↔ e2.dist < e1.dist := by
  constructor
  · intro h
    unfold _cmp_weight_then_from_protocol_specificity at h
    repeat' split at h
    all_goals try omega
    all_goals simp at h
  · intro h
    unfold _cmp_weight_then_from_protocol_specificity
    rw [if_neg (by omega : ¬ e1.dist < e2.dist), if_pos (by omega : e1.dist > e2.dist)]

theorem mem_insertEdge (w : World) (e x : Edge) (l : List Edge) :
    x ∈ insertEdge w e l ↔ x = e ∨ x ∈ l := by
  induction l with
  | nil => simp [insertEdge]
  | cons f fs ih =>
    simp only [insertEdge]
    split
    · rw [List.mem_cons, ih, List.mem_cons]
      tauto
    · rw [List.mem_cons, List.mem_cons]

theorem insertEdge_sorted (w : World) (e : Edge) (l : List Edge)
    (h : l.Pairwise (fun a b => a.dist ≤ b.dist)) :
    (insertEdge w e l).Pairwise (fun a b => a.dist ≤ b.dist) := by
  induction l with
  | nil => simp [insertEdge]
  | cons f fs ih =>
    rcases List.pairwise_cons.mp h with ⟨hf, hfs⟩
    simp only [insertEdge]
    split
    · rename_i hgt
      have hlt : f.dist < e.dist := (cmp_gt_iff w e f).mp hgt
      refine List.pairwise_cons.mpr ⟨?_, ih hfs⟩
      intro x hx
      rcases (mem_insertEdge w e x fs).mp hx with rfl | hx'
      · omega
      · exact hf x hx'
    · rename_i hng
      have hle : e.dist ≤ f.dist := by
        by_contra hcon
        exact hng ((cmp_gt_iff w e f).mpr (by omega))
      refine List.pairwise_cons.mpr ⟨?_, h⟩
      intro x hx
      rcases List.mem_cons.mp hx with rfl | hx'
      · exact hle
      · exact le_trans hle (hf x hx')

theorem sortEdges_sorted (w : World) (l : List Edge) :
    (sortEdges w l).Pairwise (fun a b => a.dist ≤ b.dist) := by
  induction l with
  | nil => simp [sortEdges]
  | cons e es ih => exact insertEdge_sorted w e (sortEdges w es) ih

theorem insertEdge_perm (w : World) (e : Edge) (l : List Edge) :
    List.Perm (insertEdge w e l) (e :: l) := by
  induction l with
  | nil =>
    simp only [insertEdge]
    exact List.Perm.refl _
  | cons f fs ih =>
    simp only [insertEdge]
    split
    · exact (List.Perm.cons f ih).trans (List.Perm.swap e f fs)
    · exact List.Perm.refl _

theorem sortEdges_perm (w : World) (l : List Edge) :
    List.Perm (sortEdges w l) l := by
  induction l with
  | nil => exact List.Perm.refl _
  | cons e es ih =>
    exact (insertEdge_perm w e (sortEdges w es)).trans (List.Perm.cons e ih)

/-- Exhaustive case analysis of `adapt`'s control flow (lines 92-107): the
identity branch, the identity branch poisoned by `adaptee = None`, a
successful search, and a failed search. -/
theorem adapt_cases (w : World) (mgr : AdaptationManager) (o : PyObj) (C : Nat) :
    (provides_protocol w (typeOf o) C = true ∧ o ≠ .pynone ∧
      ∀ default, adapt w mgr o C default = .ok o) ∨
    (provides_protocol w (typeOf o) C = true ∧ o = .pynone ∧
      adapt w mgr o C none = .raised ∧ ∀ d, adapt w mgr o C (some d) = .ok d) ∨
    (provides_protocol w (typeOf o) C = false ∧ _adapt w mgr o C ≠ .pynone ∧
      ∀ default, adapt w mgr o C default = .ok (_adapt w mgr o C)) ∨
    (provides_protocol w (typeOf o) C = false ∧ _adapt w mgr o C = .pynone ∧
      adapt w mgr o C none = .raised ∧ ∀ d, adapt w mgr o C (some d) = .ok d) := by
  by_cases hp : provides_protocol w (typeOf o) C = true
  · by_cases ho : o = PyObj.pynone
    · subst ho
      exact Or.inr (Or.inl ⟨hp, rfl, by simp [adapt, hp], fun d => by simp [adapt, hp]⟩)
    · exact Or.inl ⟨hp, ho, fun default => by simp [adapt, hp, ho]⟩
  · have hp' : provides_protocol w (typeOf o) C = false := by
      simpa using hp
    by_cases ha : _adapt w mgr o C = PyObj.pynone
    · exact Or.inr (Or.inr (Or.inr
        ⟨hp', ha, by simp [adapt, hp', ha], fun d => by simp [adapt, hp', ha]⟩))
    · exact Or.inr (Or.inr (Or.inl
        ⟨hp', ha, fun default => by simp [adapt, hp', ha]⟩))

/-- C1 (amended): for every object `o` other than Python `None` whose type
provides capability `C`, `adapt(o, C)` returns `o` itself unchanged, and it
does so whatever behaviour the adapter factories have (so no registered
offer's factory can influence — or be observed by — the call). -/
theorem C1_adapt_identity (w : World) (F : Nat → PyObj → PyObj)
    (mgr : AdaptationManager) (o : PyObj) (C : Nat) (default : Option PyObj)
    (ho : o ≠ .pynone) (hp : provides_protocol w (typeOf o) C = true) :
    adapt { w with applyFactory := F } mgr o C default = .ok o := by
  have hp' : provides_protocol { w with applyFactory := F } (typeOf o) C = true := hp
  simp [adapt, hp', ho]

/-- C1: the claim fails for `o = None`: even when `type(None)` provides the
target protocol, `adapt(None, C)` raises `AdaptationError` instead of
returning `None` unchanged, because the returned `None` is indistinguishable
from the internal failure sentinel. -/
theorem C1_counterexample :
    provides_protocol wA (typeOf PyObj.pynone) 0 = true ∧
    adapt wA mgrEmpty PyObj.pynone 0 none = .raised ∧
    adapt wA mgrEmpty PyObj.pynone 0 none ≠ .ok PyObj.pynone := by decide

theorem C1_witness :
    adapt { wA with applyFactory := fun _ _ => PyObj.pynone } mgrA (PyObj.mk 5 0) 0 none
      = .ok (PyObj.mk 5 0) :=
  C1_adapt_identity wA (fun _ _ => PyObj.pynone) mgrA (PyObj.mk 5 0) 0 none
    (by decide) (by decide)

/-- C2 (amended): for every adaptee other than Python `None`, `adapt` raises
`AdaptationError` exactly when the adaptee's type does not already provide
the target and the exhaustive search finds no chain, and no default was
supplied; whenever a default is supplied the call never raises, and in the
no-chain situation it returns the default. -/
theorem C2_adapt_error_iff (w : World) (mgr : AdaptationManager) (o : PyObj)
    (C : Nat) :
    (o ≠ .pynone →
      (adapt w mgr o C none = .raised ↔
        provides_protocol w (typeOf o) C = false ∧ _adapt w mgr o C = .pynone)) ∧
    (∀ d, adapt w mgr o C (some d) ≠ .raised) ∧
    (∀ d, provides_protocol w (typeOf o) C = false → _adapt w mgr o C = .pynone →
      adapt w mgr o C (some d) = .ok d) := by
  rcases adapt_cases w mgr o C with
    ⟨hp, ho, hall⟩ | ⟨hp, ho, hnone, hsome⟩ | ⟨hp, ha, hall⟩ | ⟨hp, ha, hnone, hsome⟩
  · refine ⟨fun _ => ?_, fun d => ?_, fun d hf _ => ?_⟩
    · rw [hall none]
      simp [hp]
    · rw [hall (some d)]
      simp
    · rw [hp] at hf
      exact Bool.noConfusion hf
  · refine ⟨fun hne => absurd ho hne, fun d => ?_, fun d hf _ => ?_⟩
    · rw [hsome d]
      simp
    · rw [hp] at hf
      exact Bool.noConfusion hf
  · refine ⟨fun _ => ?_, fun d => ?_, fun d _ hf => absurd hf ha⟩
    · rw [hall none]
      simp [hp, ha]
    · rw [hall (some d)]
      simp
  · refine ⟨fun _ => ?_, fun d => ?_, fun d _ _ => hsome d⟩
    · rw [hnone]
      simp [hp, ha]
    · rw [hsome d]
      simp

/-- C2: the claim's "raises exactly when the search finds no chain" fails for
`adaptee = None`: here `type(None)` provides the target (an identity chain of
length zero exists) and the search itself would even find a one-step chain,
yet `adapt(None, 0)` raises. -/
theorem C2_counterexample :
    provides_protocol wA (typeOf PyObj.pynone) 0 = true ∧
    _adapt wA mgrB PyObj.pynone 0 ≠ .pynone ∧
    adapt wA mgrB PyObj.pynone 0 none = .raised := by decide

theorem C2_witness :
    adapt wA mgrA (PyObj.mk 5 1) 3 (some PyObj.pynone) = .ok PyObj.pynone :=
  (C2_adapt_error_iff wA mgrA (PyObj.mk 5 1) 3).2.2 PyObj.pynone (by decide) (by decide)

/-- C6 (amended): candidate edges are sorted ascending by specificity
distance, but the specificity tie-break is inert: the comparator returns
`greater` exactly when the first edge's distance is strictly greater — never
because of a specialization relation between the source capabilities — since
its second specificity test repeats the first and is unreachable. -/
theorem C6_cmp_and_sort (w : World) (e1 e2 : Edge) (es : List Edge) :
    (_cmp_weight_then_from_protocol_specificity w e1 e2 = .gt ↔ e2.dist < e1.dist) ∧
    (sortEdges w es).Pairwise (fun a b => a.dist ≤ b.dist) :=
  ⟨cmp_gt_iff w e1 e2, sortEdges_sorted w es⟩

/-- C6: edge `e2`'s source capability (class `11`) strictly specializes edge
`e1`'s (class `10`), the distances are equal, and yet the comparator returns
`equal`, not `greater`: the second specificity branch is dead code. -/
theorem C6_counterexample :
    issubclass wA 11 10 = true ∧ issubclass wA 10 11 = false ∧
    _cmp_weight_then_from_protocol_specificity wA
      ⟨0, 0, ⟨some 1, 10, 3⟩⟩ ⟨0, 1, ⟨some 1, 11, 3⟩⟩ = .eq := by decide

theorem C6_witness :
    _cmp_weight_then_from_protocol_specificity wA
      ⟨5, 0, ⟨some 1, 10, 3⟩⟩ ⟨3, 1, ⟨some 1, 11, 3⟩⟩ = .gt :=
  (C6_cmp_and_sort wA ⟨5, 0, ⟨some 1, 10, 3⟩⟩ ⟨3, 1, ⟨some 1, 11, 3⟩⟩ []).1.mpr
    (by decide)

/-- C8 (amended): `register_adaptation_offer` appends the offer to the
registry unconditionally and never fails; no validation of the factory or of
the capabilities is performed (there is no `InvalidOfferError` anywhere in
the module), and `register_adapter_factory` simply builds the offer triple
and appends it likewise. -/
theorem C8_register_appends (mgr : AdaptationManager) (offer : Offer)
    (factory : Option Nat) (fp tp : Nat) :
    (register_adaptation_offer mgr offer)._adaptation_offers
      = mgr._adaptation_offers ++ [offer] ∧
    (register_adapter_factory mgr factory fp tp)._adaptation_offers
      = mgr._adaptation_offers ++ [⟨factory, fp, tp⟩] :=
  ⟨rfl, rfl⟩

/-- C8: a malformed offer — here one with a null factory — is NOT rejected:
registration succeeds and the offer ends up in the registry, contradicting
the claimed fail-fast `InvalidOfferError`. -/
theorem C8_counterexample :
    (⟨none, 5, 6⟩ : Offer).factory = none ∧
    (register_adaptation_offer mgrEmpty ⟨none, 5, 6⟩)._adaptation_offers
      = [⟨none, 5, 6⟩] := by decide

/-- C10 (amended): `adapt` can only return Python `None` when `None` was the
supplied default; for `adaptee = None` whose type provides the target, the
identity result is discarded — the call raises (or returns the default) and
`supports_protocol(None, C)` is `false`.  (It is NOT false regardless of
providing: a registered offer can still adapt `None` itself, see the
counterexample.) -/
theorem C10_none_sentinel (w : World) (mgr : AdaptationManager) (C : Nat) :
    (∀ (o : PyObj) (default : Option PyObj),
      adapt w mgr o C default = .ok .pynone → default = some .pynone) ∧
    (provides_protocol w (typeOf PyObj.pynone) C = true →
      adapt w mgr .pynone C none = .raised ∧
      (∀ d, adapt w mgr .pynone C (some d) = .ok d) ∧
      supports_protocol w mgr .pynone C = false) := by
  constructor
  · intro o default h
    rcases adapt_cases w mgr o C with
      ⟨hp, ho, hall⟩ | ⟨hp, ho, hnone, hsome⟩ | ⟨hp, ha, hall⟩ | ⟨hp, ha, hnone, hsome⟩
    · rw [hall default] at h
      simp only [AdaptOutcome.ok.injEq] at h
      exact absurd h ho
    · match default with
      | none =>
        rw [hnone] at h
        exact AdaptOutcome.noConfusion h
      | some d =>
        rw [hsome d] at h
        simp only [AdaptOutcome.ok.injEq] at h
        rw [h]
    · rw [hall default] at h
      simp only [AdaptOutcome.ok.injEq] at h
      exact absurd h ha
    · match default with
      | none =>
        rw [hnone] at h
        exact AdaptOutcome.noConfusion h
      | some d =>
        rw [hsome d] at h
        simp only [AdaptOutcome.ok.injEq] at h
        rw [h]
  · intro hp
    rcases adapt_cases w mgr .pynone C with
      ⟨_, ho, _⟩ | ⟨_, _, hnone, hsome⟩ | ⟨hp', _, _⟩ | ⟨hp', _, _⟩
    · exact absurd rfl ho
    · refine ⟨hnone, hsome, ?_⟩
      unfold supports_protocol
      rw [hsome .pynone]
      simp
    · rw [hp] at hp'
      exact Bool.noConfusion hp'
    · rw [hp] at hp'
      exact Bool.noConfusion hp'

/-- C10: `supports_protocol(None, C)` is not false regardless of whether
`None` provides `C` — when `type(None)` does not provide `C` but a registered
offer adapts `None` to an object that does, it returns `true`. -/
theorem C10_counterexample :
    provides_protocol wA (typeOf PyObj.pynone) 3 = false ∧
    supports_protocol wA mgrA PyObj.pynone 3 = true := by decide

theorem C10_witness :
    adapt wA mgrB PyObj.pynone 0 none = .raised ∧
    supports_protocol wA mgrB PyObj.pynone 0 = false := by
  have h := (C10_none_sentinel wA mgrB 0).2 (by decide)
  exact ⟨h.1, h.2.2⟩

/-- Characterization of the length of a `takeWhile` prefix: every element
before it satisfies the predicate, and the element at it (if any) does
not. -/
theorem takeWhile_count_spec (p : Nat → Bool) (l : List Nat) :
    (l.takeWhile p).length ≤ l.length ∧
    (∀ i, i < (l.takeWhile p).length → p (l.getD i 0) = true) ∧
    ((l.takeWhile p).length < l.length → p (l.getD ((l.takeWhile p).length) 0) = false) := by
  induction l with
  | nil => simp
  | cons a l ih =>
    obtain ⟨ih1, ih2, ih3⟩ := ih
    by_cases hpa : p a = true
    · rw [List.takeWhile_cons_of_pos hpa]
      refine ⟨by simpa using ih1, ?_, ?_⟩
      · intro i hi
        match i with
        | 0 => simpa using hpa
        | Nat.succ j =>
          simp only [List.length_cons] at hi
          have hj : j < (l.takeWhile p).length := by omega
          simpa using ih2 j hj
      · intro h
        simp only [List.length_cons] at h
        have h' : (l.takeWhile p).length < l.length := by omega
        simpa using ih3 h'
    · have hpa' : p a = false := by simpa using hpa
      rw [List.takeWhile_cons_of_neg (by simp [hpa'])]
      refine ⟨by simp, ?_, ?_⟩
      · intro i hi
        exact absurd hi (by simp)
      · intro _
        simpa using hpa'

/-- C3: `mro_distance_to_protocol(T, P)` is `None` iff `T` does not provide
`P`; otherwise it returns the count `d` of leading ancestors of `T` (MRO
order, `T` itself excluded) that still provide `P`: every ancestor before
position `d` provides `P`, and the ancestor at position `d` — when the chain
extends that far — does not (so in particular `d = 0` when the immediate
ancestor does not provide `P`). -/
theorem C3_mro_distance (w : World) (T P : Nat) :
    (mro_distance_to_protocol w T P = none ↔ provides_protocol w T P = false) ∧
    (∀ d, mro_distance_to_protocol w T P = some d →
      provides_protocol w T P = true ∧
      d ≤ ((w.mro T).drop 1).length ∧
      (∀ i, i < d → provides_protocol w (((w.mro T).drop 1).getD i 0) P = true) ∧
      (d < ((w.mro T).drop 1).length →
        provides_protocol w (((w.mro T).drop 1).getD d 0) P = false)) := by
  constructor
  · by_cases hp : provides_protocol w T P = true
    · unfold mro_distance_to_protocol
      rw [if_pos hp]
      simp [hp]
    · have hp' : provides_protocol w T P = false := by simpa using hp
      unfold mro_distance_to_protocol
      rw [if_neg hp]
      simp [hp']
  · intro d hd
    unfold mro_distance_to_protocol at hd
    by_cases hp : provides_protocol w T P = true
    · rw [if_pos hp] at hd
      have hd' := Option.some.inj hd
      subst hd'
      obtain ⟨h1, h2, h3⟩ :=
        takeWhile_count_spec (fun t => provides_protocol w t P) ((w.mro T).drop 1)
      exact ⟨hp, h1, h2, h3⟩
    · rw [if_neg hp] at hd
      exact Option.noConfusion hd

theorem C3_witness :
    provides_protocol wA 7 3 = true ∧ 1 ≤ ((wA.mro 7).drop 1).length ∧
    provides_protocol wA (((wA.mro 7).drop 1).getD 0 0) 3 = true := by
  have h := (C3_mro_distance wA 7 3).2 1 (by decide)
  exact ⟨h.1, h.2.1, h.2.2.1 0 (by decide)⟩

theorem keyLt_true_iff : ∀ (a b : (Nat × Nat) × Nat),
    keyLt a b = true ↔
      (a.1.1 < b.1.1 ∨ (a.1.1 = b.1.1 ∧ (a.1.2 < b.1.2 ∨ (a.1.2 = b.1.2 ∧ a.2 < b.2)))) := by
  intro ⟨⟨a1, a2⟩, a3⟩ ⟨⟨b1, b2⟩, b3⟩
  simp [keyLt]

theorem keyLt_false_iff : ∀ (a b : (Nat × Nat) × Nat),
    keyLt a b = false ↔
      ¬(a.1.1 < b.1.1 ∨ (a.1.1 = b.1.1 ∧ (a.1.2 < b.1.2 ∨ (a.1.2 = b.1.2 ∧ a.2 < b.2)))) := by
  intro a b
  rw [Bool.eq_false_iff]
  exact not_congr (keyLt_true_iff a b)

theorem keyLt_irrefl (a : (Nat × Nat) × Nat) : keyLt a a = false := by
  rw [keyLt_false_iff]
  omega

theorem keyLt_asymm (a b : (Nat × Nat) × Nat) (h : keyLt a b = true) :
    keyLt b a = false := by
  rw [keyLt_true_iff] at h
  rw [keyLt_false_iff]
  omega

theorem keyLt_notlt_trans (a b c : (Nat × Nat) × Nat) (h1 : keyLt a b = false)
    (h2 : keyLt b c = false) : keyLt a c = false := by
  rw [keyLt_false_iff] at h1 h2 ⊢
  omega

theorem keyLt_of_ne_notlt (a b : (Nat × Nat) × Nat) (hne : a ≠ b)
    (h : keyLt a b = false) : keyLt b a = true := by
  rw [keyLt_false_iff] at h
  rw [keyLt_true_iff]
  have hcomp : ¬(a.1.1 = b.1.1 ∧ a.1.2 = b.1.2 ∧ a.2 = b.2) := by
    intro hc
    exact hne (Prod.ext_iff.mpr ⟨Prod.ext_iff.mpr ⟨hc.1, hc.2.1⟩, hc.2.2⟩)
  omega

theorem popMin_eq_none_iff (q : List QEntry) : popMin q = none ↔ q = [] := by
  cases q with
  | nil => simp [popMin]
  | cons e es =>
    simp only [popMin]
    cases popMin es with
    | none => simp
    | some p =>
      obtain ⟨m, rest⟩ := p
      by_cases h : keyLt (entryKey m) (entryKey e) = true
      · simp [h]
      · simp [h]

theorem popMin_perm (q : List QEntry) (m : QEntry) (rest : List QEntry)
    (h : popMin q = some (m, rest)) : List.Perm (m :: rest) q := by
  induction q generalizing m rest with
  | nil => exact Option.noConfusion h
  | cons e es ih =>
    simp only [popMin] at h
    cases hes : popMin es with
    | none =>
      simp only [hes] at h
      have : es = [] := (popMin_eq_none_iff es).mp hes
      subst this
      simp only [Option.some.injEq, Prod.mk.injEq] at h
      obtain ⟨h1, h2⟩ := h
      subst h1
      subst h2
      exact List.Perm.refl _
    | some p =>
      obtain ⟨m', rest'⟩ := p
      simp only [hes] at h
      by_cases hk : keyLt (entryKey m') (entryKey e) = true
      · rw [if_pos hk] at h
        simp only [Option.some.injEq, Prod.mk.injEq] at h
        obtain ⟨h1, h2⟩ := h
        subst h1
        subst h2
        exact (List.Perm.swap e m' rest').trans (List.Perm.cons e (ih m' rest' hes))
      · rw [if_neg hk] at h
        simp only [Option.some.injEq, Prod.mk.injEq] at h
        obtain ⟨h1, h2⟩ := h
        subst h1
        subst h2
        exact List.Perm.refl _

theorem popMin_min (q : List QEntry) (m : QEntry) (rest : List QEntry)
    (h : popMin q = some (m, rest)) :
    ∀ x ∈ q, keyLt (entryKey x) (entryKey m) = false := by
  induction q generalizing m rest with
  | nil => exact Option.noConfusion h
  | cons e es ih =>
    simp only [popMin] at h
    cases hes : popMin es with
    | none =>
      simp only [hes] at h
      have : es = [] := (popMin_eq_none_iff es).mp hes
      subst this
      simp only [Option.some.injEq, Prod.mk.injEq] at h
      obtain ⟨h1, _⟩ := h
      subst h1
      intro x hx
      rcases List.mem_cons.mp hx with rfl | hx'
      · exact keyLt_irrefl _
      · exact absurd hx' (List.not_mem_nil x)
    | some p =>
      obtain ⟨m', rest'⟩ := p
      simp only [hes] at h
      by_cases hk : keyLt (entryKey m') (entryKey e) = true
      · rw [if_pos hk] at h
        simp only [Option.some.injEq, Prod.mk.injEq] at h
        obtain ⟨h1, _⟩ := h
        subst h1
        intro x hx
        rcases List.mem_cons.mp hx with rfl | hx'
        · exact keyLt_asymm _ _ hk
        · exact ih m' rest' hes x hx'
      · rw [if_neg hk] at h
        simp only [Option.some.injEq, Prod.mk.injEq] at h
        obtain ⟨h1, _⟩ := h
        subst h1
        have hke : keyLt (entryKey m') (entryKey e) = false := Bool.eq_false_iff.mpr hk
        intro x hx
        rcases List.mem_cons.mp hx with rfl | hx'
        · exact keyLt_irrefl _
        · exact keyLt_notlt_trans _ _ _ (ih m' rest' hes x hx') hke

theorem oeAux_mem (w : World) (obj : PyObj) (visited : List Nat) :
    ∀ (offs : List Offer) (i : Nat) (e : Edge), e ∈ outgoingEdgesAux w obj visited i offs →
      i ≤ e.idx ∧ e.idx < i + offs.length ∧ e.idx ∉ visited ∧
      offs[e.idx - i]? = some e.offer ∧
      mro_distance_to_protocol w (typeOf obj) e.offer.from_protocol = some e.dist := by
  intro offs
  induction offs with
  | nil =>
    intro i e he
    exact absurd he (List.not_mem_nil e)
  | cons off rest ih =>
    intro i e he
    simp only [outgoingEdgesAux] at he
    by_cases hv : i ∈ visited
    · rw [if_pos hv] at he
      obtain ⟨hle, hlt, hnv, hget, hd⟩ := ih (i + 1) e he
      refine ⟨by omega, by simp only [List.length_cons]; omega, hnv, ?_, hd⟩
      have heq : e.idx - i = (e.idx - (i + 1)) + 1 := by omega
      rw [heq, List.getElem?_cons_succ]
      exact hget
    · rw [if_neg hv] at he
      cases hmd : mro_distance_to_protocol w (typeOf obj) off.from_protocol with
      | none =>
        simp only [hmd] at he
        obtain ⟨hle, hlt, hnv, hget, hd⟩ := ih (i + 1) e he
        refine ⟨by omega, by simp only [List.length_cons]; omega, hnv, ?_, hd⟩
        have heq : e.idx - i = (e.idx - (i + 1)) + 1 := by omega
        rw [heq, List.getElem?_cons_succ]
        exact hget
      | some d =>
        simp only [hmd] at he
        rcases List.mem_cons.mp he with rfl | he'
        · refine ⟨le_refl i, by simp only [List.length_cons]; omega, hv, ?_, hmd⟩
          simp
        · obtain ⟨hle, hlt, hnv, hget, hd⟩ := ih (i + 1) e he'
          refine ⟨by omega, by simp only [List.length_cons]; omega, hnv, ?_, hd⟩
          have heq : e.idx - i = (e.idx - (i + 1)) + 1 := by omega
          rw [heq, List.getElem?_cons_succ]
          exact hget

theorem oeAux_pairwise (w : World) (obj : PyObj) (visited : List Nat) :
    ∀ (offs : List Offer) (i : Nat),
      (outgoingEdgesAux w obj visited i offs).Pairwise (fun a b => a.idx < b.idx) := by
  intro offs
  induction offs with
  | nil =>
    intro i
    simp [outgoingEdgesAux]
  | cons off rest ih =>
    intro i
    simp only [outgoingEdgesAux]
    by_cases hv : i ∈ visited
    · rw [if_pos hv]
      exact ih (i + 1)
    · rw [if_neg hv]
      cases hmd : mro_distance_to_protocol w (typeOf obj) off.from_protocol with
      | none => exact ih (i + 1)
      | some d =>
        refine List.pairwise_cons.mpr ⟨?_, ih (i + 1)⟩
        intro e he
        have h1 := (oeAux_mem w obj visited rest (i + 1) e he).1
        show i < e.idx
        omega

theorem oeAux_mem_of (w : World) (obj : PyObj) (visited : List Nat) :
    ∀ (offs : List Offer) (i j : Nat) (off : Offer) (d : Nat),
      offs[j]? = some off → (i + j) ∉ visited →
      mro_distance_to_protocol w (typeOf obj) off.from_protocol = some d →
      (⟨d, i + j, off⟩ : Edge) ∈ outgoingEdgesAux w obj visited i offs := by
  intro offs
  induction offs with
  | nil =>
    intro i j off d hget
    exact absurd hget (by simp)
  | cons o rest ih =>
    intro i j off d hget hnv hmd
    match j with
    | 0 =>
      rw [List.getElem?_cons_zero] at hget
      obtain rfl : o = off := Option.some.inj hget
      simp only [outgoingEdgesAux]
      have hv : i ∉ visited := by simpa using hnv
      rw [if_neg hv]
      simp only [hmd]
      simp [List.mem_cons]
    | Nat.succ j' =>
      rw [List.getElem?_cons_succ] at hget
      have heq : i + (j' + 1) = (i + 1) + j' := by omega
      have hnv' : (i + 1) + j' ∉ visited := by
        rw [← heq]
        exact hnv
      have hmem := ih (i + 1) j' off d hget hnv' hmd
      have hmem' : (⟨d, i + (j' + 1), off⟩ : Edge) ∈ outgoingEdgesAux w obj visited (i + 1) rest := by
        rw [heq]
        exact hmem
      simp only [outgoingEdgesAux]
      by_cases hv : i ∈ visited
      · rw [if_pos hv]
        exact hmem'
      · rw [if_neg hv]
        cases hmd2 : mro_distance_to_protocol w (typeOf obj) o.from_protocol with
        | none =>
          simp only [hmd2]
          exact hmem'
        | some d2 =>
          simp only [hmd2]
          exact List.mem_cons_of_mem _ hmem'


theorem processEdges_inr_spec (w : World) (toP : Nat) (pw : Nat × Nat) (obj : PyObj) :
    ∀ (edges : List Edge) (visited : List Nat) (counter : Nat) en v' c',
      processEdges w toP pw obj edges visited counter = .inr (en, v', c') →
      v' = visited ++ (edges.filter
          (fun e => decide (applyOffer w e.offer obj ≠ PyObj.pynone))).map Edge.idx ∧
      en.map QEntry.count = List.range' counter en.length ∧
      c' = counter + en.length ∧
      en.length = (edges.filter
          (fun e => decide (applyOffer w e.offer obj ≠ PyObj.pynone))).length ∧
      (∀ q ∈ en, q.weight.1 = pw.1 + 1 ∧ ∃ ed ∈ edges, q.weight.2 = pw.2 + ed.dist) := by
  intro edges
  induction edges with
  | nil =>
    intro visited counter en v' c' h
    simp only [processEdges, Sum.inr.injEq, Prod.mk.injEq] at h
    obtain ⟨he, hv, hc⟩ := h
    subst he
    subst hv
    subst hc
    simp
  | cons e es ih =>
    intro visited counter en v' c' h
    simp only [processEdges] at h
    by_cases ha : applyOffer w e.offer obj = PyObj.pynone
    · rw [if_pos ha] at h
      obtain ⟨hv, hm, hc, hl, hw⟩ := ih visited counter en v' c' h
      refine ⟨?_, hm, hc, ?_, ?_⟩
      · rw [hv]
        simp [List.filter_cons, ha]
      · rw [hl]
        simp [List.filter_cons, ha]
      · intro q hq
        obtain ⟨h1, ed, hed, h2⟩ := hw q hq
        exact ⟨h1, ed, List.mem_cons_of_mem e hed, h2⟩
    · rw [if_neg ha] at h
      by_cases hp : provides_protocol w (typeOf (applyOffer w e.offer obj)) toP = true
      · rw [if_pos hp] at h
        exact Sum.noConfusion h
      · rw [if_neg hp] at h
        cases hrec : processEdges w toP pw obj es (visited ++ [e.idx]) (counter + 1) with
        | inl a =>
          simp only [hrec] at h
          exact Sum.noConfusion h
        | inr t =>
          obtain ⟨entries, v2, c2⟩ := t
          simp only [hrec, Sum.inr.injEq, Prod.mk.injEq] at h
          obtain ⟨hen, hv2, hc2⟩ := h
          subst hen
          subst hv2
          subst hc2
          obtain ⟨hv, hm, hc, hl, hw⟩ := ih (visited ++ [e.idx]) (counter + 1) entries v2 c2 hrec
          refine ⟨?_, ?_, ?_, ?_, ?_⟩
          · rw [hv]
            simp [List.filter_cons, ha, List.append_assoc]
          · rw [List.map_cons, hm, List.length_cons, List.range'_succ]
          · simp only [List.length_cons]
            omega
          · simp [List.filter_cons, ha, List.length_cons, hl]
          · intro q hq
            rcases List.mem_cons.mp hq with rfl | hq'
            · exact ⟨rfl, e, List.mem_cons_self e es, rfl⟩
            · obtain ⟨h1, ed, hed, h2⟩ := hw q hq'
              exact ⟨h1, ed, List.mem_cons_of_mem e hed, h2⟩

theorem processEdges_inl_of (w : World) (toP : Nat) (pw : Nat × Nat) (obj : PyObj)
    (x : PyObj) :
    ∀ (edges : List Edge) (visited : List Nat) (counter : Nat),
      (∀ e ∈ edges, applyOffer w e.offer obj ≠ PyObj.pynone →
        provides_protocol w (typeOf (applyOffer w e.offer obj)) toP = true →
        applyOffer w e.offer obj = x) →
      (∃ e ∈ edges, applyOffer w e.offer obj ≠ PyObj.pynone ∧
        provides_protocol w (typeOf (applyOffer w e.offer obj)) toP = true) →
      processEdges w toP pw obj edges visited counter = .inl x := by
  intro edges
  induction edges with
  | nil =>
    intro visited counter _ hex
    obtain ⟨e, he, _⟩ := hex
    exact absurd he (List.not_mem_nil e)
  | cons e es ih =>
    intro visited counter hall hex
    simp only [processEdges]
    by_cases ha : applyOffer w e.offer obj = PyObj.pynone
    · rw [if_pos ha]
      apply ih visited counter
      · intro f hf
        exact hall f (List.mem_cons_of_mem e hf)
      · obtain ⟨f, hf, hfa, hfp⟩ := hex
        rcases List.mem_cons.mp hf with rfl | hf'
        · exact absurd ha hfa
        · exact ⟨f, hf', hfa, hfp⟩
    · rw [if_neg ha]
      by_cases hp : provides_protocol w (typeOf (applyOffer w e.offer obj)) toP = true
      · rw [if_pos hp]
        rw [hall e (List.mem_cons_self e es) ha hp]
      · rw [if_neg hp]
        have hres := ih (visited ++ [e.idx]) (counter + 1)
          (fun f hf => hall f (List.mem_cons_of_mem e hf)) ?_
        · simp only [hres]
        · obtain ⟨f, hf, hfa, hfp⟩ := hex
          rcases List.mem_cons.mp hf with rfl | hf'
          · exact absurd hfp hp
          · exact ⟨f, hf', hfa, hfp⟩

/-- C7: during one search, an offer's registry position enters the visited
set exactly when its factory returned a non-null result (offers whose factory
returned null are not marked); a visited offer is excluded from the outgoing
edges of every later frontier object, while every unvisited offer whose
source protocol the frontier object's type provides reappears among them. -/
theorem C7_visited_set (w : World) (toP : Nat) (pw : Nat × Nat) (obj : PyObj) :
    (∀ edges visited counter en v' c',
      processEdges w toP pw obj edges visited counter = .inr (en, v', c') →
      v' = visited ++ (edges.filter
        (fun e => decide (applyOffer w e.offer obj ≠ PyObj.pynone))).map Edge.idx) ∧
    (∀ (offers : List Offer) (visited : List Nat) (e : Edge),
      e ∈ _get_outgoing_edges w offers obj visited →
      e.idx ∉ visited ∧ e.idx < offers.length ∧ offers[e.idx]? = some e.offer ∧
      mro_distance_to_protocol w (typeOf obj) e.offer.from_protocol = some e.dist) ∧
    (∀ (offers : List Offer) (visited : List Nat) (i : Nat) (off : Offer) (d : Nat),
      offers[i]? = some off → i ∉ visited →
      mro_distance_to_protocol w (typeOf obj) off.from_protocol = some d →
      (⟨d, i, off⟩ : Edge) ∈ _get_outgoing_edges w offers obj visited) := by
  refine ⟨?_, ?_, ?_⟩
  · intro edges visited counter en v' c' h
    exact (processEdges_inr_spec w toP pw obj edges visited counter en v' c' h).1
  · intro offers visited e he
    obtain ⟨_, hlt, hnv, hget, hd⟩ := oeAux_mem w obj visited offers 0 e he
    refine ⟨hnv, by omega, ?_, hd⟩
    simpa using hget
  · intro offers visited i off d hget hnv hmd
    have h := oeAux_mem_of w obj visited offers 0 i off d (by simpa using hget)
      (by simpa using hnv) hmd
    simpa using h

theorem C7_witness :
    ([0] : List Nat) = [] ++ ((([⟨0, 0, ⟨some 1, 0, 3⟩⟩] : List Edge).filter
      (fun e => decide (applyOffer wA e.offer PyObj.pynone ≠ PyObj.pynone))).map Edge.idx) :=
  (C7_visited_set wA 5 (0, 0) PyObj.pynone).1 [⟨0, 0, ⟨some 1, 0, 3⟩⟩] [] 1
    [⟨(1, 0), 1, .mk 1 7⟩] [0] 2 (by decide)

/-- C5: when the adaptee's type does not provide the target and the registry
contains a one-step chain — an applicable offer whose factory turns the
adaptee directly into an object providing the target — and every such
one-step chain yields the same result `x`, `adapt` returns `x`: a direct
chain wins over any longer chain (all direct edges are examined while the
very first frontier entry is expanded, and the first hit returns
immediately). -/
theorem C5_shortest_chain (w : World) (mgr : AdaptationManager) (o : PyObj)
    (C : Nat) (default : Option PyObj) (x : PyObj)
    (hp : provides_protocol w (typeOf o) C = false)
    (hex : ∃ i : Fin mgr._adaptation_offers.length,
      mro_distance_to_protocol w (typeOf o)
        (mgr._adaptation_offers.get i).from_protocol ≠ none ∧
      applyOffer w (mgr._adaptation_offers.get i) o ≠ PyObj.pynone ∧
      provides_protocol w (typeOf (applyOffer w (mgr._adaptation_offers.get i) o)) C = true)
    (huniq : ∀ i : Fin mgr._adaptation_offers.length,
      applyOffer w (mgr._adaptation_offers.get i) o ≠ PyObj.pynone →
      provides_protocol w (typeOf (applyOffer w (mgr._adaptation_offers.get i) o)) C = true →
      applyOffer w (mgr._adaptation_offers.get i) o = x) :
    adapt w mgr o C default = .ok x := by
  have hgetq : ∀ (i : Fin mgr._adaptation_offers.length),
      mgr._adaptation_offers[i.val]? = some (mgr._adaptation_offers.get i) := by
    intro i
    rw [List.getElem?_eq_getElem i.isLt, List.get_eq_getElem]
  obtain ⟨i, hmd0, hne0, hprov0⟩ := hex
  have hx : applyOffer w (mgr._adaptation_offers.get i) o = x := huniq i hne0 hprov0
  have hxne : x ≠ PyObj.pynone := by
    rw [← hx]
    exact hne0
  have hadapt : _adapt w mgr o C = x := by
    have hpe : processEdges w C (0, 0) o
        (sortEdges w (_get_outgoing_edges w mgr._adaptation_offers o [])) [] 1 = .inl x := by
      apply processEdges_inl_of
      · intro e he hea hep
        have he' : e ∈ _get_outgoing_edges w mgr._adaptation_offers o [] :=
          (sortEdges_perm w _).mem_iff.mp he
        obtain ⟨_, hlt, _, hget', _⟩ := oeAux_mem w o [] mgr._adaptation_offers 0 e he'
        have hidx : e.idx < mgr._adaptation_offers.length := by omega
        have hoff : mgr._adaptation_offers.get ⟨e.idx, hidx⟩ = e.offer := by
          have hq := hgetq ⟨e.idx, hidx⟩
          simp only at hq
          rw [show e.idx - 0 = e.idx from by omega] at hget'
          rw [hq] at hget'
          exact Option.some.inj hget'
      
        have h := huniq ⟨e.idx, hidx⟩
        rw [hoff] at h
        exact h hea hep
      · cases hmd : mro_distance_to_protocol w (typeOf o)
            (mgr._adaptation_offers.get i).from_protocol with
        | none => exact absurd hmd hmd0
        | some d =>
          have hmem : (⟨d, i.val, mgr._adaptation_offers.get i⟩ : Edge) ∈
              _get_outgoing_edges w mgr._adaptation_offers o [] := by
            have h := oeAux_mem_of w o [] mgr._adaptation_offers 0 i.val
              (mgr._adaptation_offers.get i) d (hgetq i) (by simp) hmd
            simpa using h
          exact ⟨⟨d, i.val, mgr._adaptation_offers.get i⟩,
            (sortEdges_perm w _).mem_iff.mpr hmem, hne0, hprov0⟩
    show (adaptLoopAux w mgr._adaptation_offers C (mgr._adaptation_offers.length + 1)
      [⟨(0, 0), 0, o⟩] [] 1).1 = x
    simp only [adaptLoopAux, popMin]
    simp only [hpe]
  rcases adapt_cases w mgr o C with
    ⟨hp', _, _⟩ | ⟨hp', _, _, _⟩ | ⟨_, _, hall⟩ | ⟨_, ha, _, _⟩
  · rw [hp] at hp'
    exact Bool.noConfusion hp'
  · rw [hp] at hp'
    exact Bool.noConfusion hp'
  · rw [hall default, hadapt]
  · rw [hadapt] at ha
    exact absurd ha hxne

theorem C5_witness : adapt wA mgrC (PyObj.mk 9 0) 3 none = .ok (PyObj.mk 1 7) :=
  C5_shortest_chain wA mgrC (PyObj.mk 9 0) 3 none (PyObj.mk 1 7) (by decide)
    (by decide) (by decide)

theorem unvisitedCount_append (n : Nat) (v newIdxs : List Nat)
    (hnd : newIdxs.Nodup) (hmem : ∀ i ∈ newIdxs, i < n ∧ i ∉ v) :
    unvisitedCount n (v ++ newIdxs) + newIdxs.length = unvisitedCount n v := by
  unfold unvisitedCount
  have hsub : newIdxs.toFinset ⊆ (Finset.range n).filter (fun i => i ∉ v) := by
    intro i hi
    rw [List.mem_toFinset] at hi
    obtain ⟨h1, h2⟩ := hmem i hi
    rw [Finset.mem_filter, Finset.mem_range]
    exact ⟨h1, h2⟩
  have hfilter : (Finset.range n).filter (fun i => i ∉ v ++ newIdxs)
      = ((Finset.range n).filter (fun i => i ∉ v)) \ newIdxs.toFinset := by
    ext i
    simp only [Finset.mem_filter, Finset.mem_sdiff, Finset.mem_range, List.mem_append,
      List.mem_toFinset]
    tauto
  rw [hfilter, Finset.card_sdiff hsub]
  have hcard : newIdxs.toFinset.card = newIdxs.length := List.toFinset_card_of_nodup hnd
  have hle : newIdxs.toFinset.card ≤ ((Finset.range n).filter (fun i => i ∉ v)).card :=
    Finset.card_le_card hsub
  omega

theorem newIdxs_facts (w : World) (offers : List Offer) (obj : PyObj) (visited : List Nat) :
    (((sortEdges w (_get_outgoing_edges w offers obj visited)).filter
      (fun e => decide (applyOffer w e.offer obj ≠ PyObj.pynone))).map Edge.idx).Nodup ∧
    ∀ i ∈ ((sortEdges w (_get_outgoing_edges w offers obj visited)).filter
      (fun e => decide (applyOffer w e.offer obj ≠ PyObj.pynone))).map Edge.idx,
      i < offers.length ∧ i ∉ visited := by
  have hmap : ((_get_outgoing_edges w offers obj visited).map Edge.idx).Pairwise (· < ·) := by
    rw [List.pairwise_map]
    exact oeAux_pairwise w obj visited offers 0
  have houtnd : ((_get_outgoing_edges w offers obj visited).map Edge.idx).Nodup :=
    hmap.imp Nat.ne_of_lt
  have hperm : List.Perm
      ((sortEdges w (_get_outgoing_edges w offers obj visited)).map Edge.idx)
      ((_get_outgoing_edges w offers obj visited).map Edge.idx) :=
    (sortEdges_perm w _).map Edge.idx
  have hsortnd : ((sortEdges w (_get_outgoing_edges w offers obj visited)).map Edge.idx).Nodup :=
    hperm.nodup_iff.mpr houtnd
  have hsubl : ((((sortEdges w (_get_outgoing_edges w offers obj visited)).filter
      (fun e => decide (applyOffer w e.offer obj ≠ PyObj.pynone))).map Edge.idx)).Sublist
      ((sortEdges w (_get_outgoing_edges w offers obj visited)).map Edge.idx) :=
    (List.filter_sublist _).map Edge.idx
  refine ⟨hsortnd.sublist hsubl, ?_⟩
  intro i hi
  rw [List.mem_map] at hi
  obtain ⟨e, hef, rfl⟩ := hi
  have he : e ∈ sortEdges w (_get_outgoing_edges w offers obj visited) :=
    List.mem_of_mem_filter hef
  have he' : e ∈ _get_outgoing_edges w offers obj visited :=
    (sortEdges_perm w _).mem_iff.mp he
  obtain ⟨_, hlt, hnv, _, _⟩ := oeAux_mem w obj visited offers 0 e he'
  exact ⟨by omega, hnv⟩

theorem adaptLoopAux_fuel (w : World) (offers : List Offer) (toP : Nat) :
    ∀ (fuel₁ fuel₂ : Nat) (q : List QEntry) (v : List Nat) (c : Nat),
      q.length + unvisitedCount offers.length v ≤ fuel₁ → fuel₁ ≤ fuel₂ →
      adaptLoopAux w offers toP fuel₁ q v c = adaptLoopAux w offers toP fuel₂ q v c := by
  intro fuel₁
  induction fuel₁ with
  | zero =>
    intro fuel₂ q v c hb _
    have hq : q = [] := by
      cases q with
      | nil => rfl
      | cons e es =>
        simp only [List.length_cons] at hb
        omega
    subst hq
    cases fuel₂ with
    | zero => rfl
    | succ f => simp [adaptLoopAux, popMin]
  | succ f ih =>
    intro fuel₂ q v c hb hle
    cases fuel₂ with
    | zero => omega
    | succ f₂ =>
      simp only [adaptLoopAux]
      cases hpop : popMin q with
      | none => simp only [hpop]
      | some pr =>
        obtain ⟨e, rest⟩ := pr
        simp only [hpop]
        cases hpe : processEdges w toP e.weight e.obj
            (sortEdges w (_get_outgoing_edges w offers e.obj v)) v c with
        | inl a => simp only [hpe]
        | inr t =>
          obtain ⟨en, v', c'⟩ := t
          simp only [hpe]
          have hrec : adaptLoopAux w offers toP f (rest ++ en) v' c'
              = adaptLoopAux w offers toP f₂ (rest ++ en) v' c' := by
            apply ih
            · obtain ⟨hv', _, _, hlen, _⟩ :=
                processEdges_inr_spec w toP e.weight e.obj _ v c en v' c' hpe
              obtain ⟨hnd, hfacts⟩ := newIdxs_facts w offers e.obj v
              have hlq := (popMin_perm q e rest hpop).length_eq
              simp only [List.length_cons] at hlq
              have huv := unvisitedCount_append offers.length v _ hnd hfacts
              rw [hv', List.length_append]
              have hnew : (((sortEdges w (_get_outgoing_edges w offers e.obj v)).filter
                  (fun ed => decide (applyOffer w ed.offer e.obj ≠ PyObj.pynone))).map
                  Edge.idx).length = en.length := by
                rw [List.length_map, ← hlen]
              omega
            · omega
          rw [hrec]

/-- C9: every `adapt` call terminates.  In one search each offer can fire at
most once — every pushed frontier entry is matched by a fresh registry index
entering the visited set — so the number of pushes after the initial entry is
at most the number of registered offers and the loop pops at most
`|registry| + 1` entries: running the loop with any budget of at least
`|registry| + 1` iterations yields exactly the result (and the pop trace) of
`_adapt`. -/
theorem C9_terminates (w : World) (mgr : AdaptationManager) (o : PyObj) (C : Nat)
    (fuel : Nat) (h : mgr._adaptation_offers.length + 1 ≤ fuel) :
    (adaptLoopAux w mgr._adaptation_offers C fuel [⟨(0, 0), 0, o⟩] [] 1).1
      = _adapt w mgr o C ∧
    (adaptLoopAux w mgr._adaptation_offers C fuel [⟨(0, 0), 0, o⟩] [] 1).2
      = adaptTrace w mgr o C := by
  have hun : unvisitedCount mgr._adaptation_offers.length [] =
      mgr._adaptation_offers.length := by
    simp [unvisitedCount]
  have heq := adaptLoopAux_fuel w mgr._adaptation_offers C
    (mgr._adaptation_offers.length + 1) fuel [⟨(0, 0), 0, o⟩] [] 1
    (by simp only [List.length_cons, List.length_nil, hun]; omega) h
  unfold _adapt adaptTrace
  rw [← heq]
  exact ⟨rfl, rfl⟩

theorem C9_witness :
    (adaptLoopAux wA mgrA._adaptation_offers 3 5 [⟨(0, 0), 0, PyObj.pynone⟩] [] 1).1
      = _adapt wA mgrA PyObj.pynone 3 :=
  (C9_terminates wA mgrA PyObj.pynone 3 5 (by decide)).1

/-- Invariants re-established by one iteration of the search loop: every
entry left in the queue (or newly pushed) has a priority key strictly above
the popped entry's, all counts stay below the counter, and counts remain
pairwise distinct. -/
theorem loopStep_invariants (w : World) (offers : List Offer) (toP : Nat)
    (q : List QEntry) (v : List Nat) (c : Nat) (e : QEntry) (rest : List QEntry)
    (en : List QEntry) (v' : List Nat) (c' : Nat)
    (hpop : popMin q = some (e, rest))
    (hpe : processEdges w toP e.weight e.obj
      (sortEdges w (_get_outgoing_edges w offers e.obj v)) v c = .inr (en, v', c'))
    (hc : ∀ x ∈ q, x.count < c)
    (hnd : (q.map QEntry.count).Nodup) :
    (∀ x ∈ rest ++ en, keyLt (entryKey e) (entryKey x) = true) ∧
    (∀ x ∈ rest ++ en, x.count < c') ∧
    ((rest ++ en).map QEntry.count).Nodup := by
  obtain ⟨_, hm, hcc, _, hw⟩ :=
    processEdges_inr_spec w toP e.weight e.obj _ v c en v' c' hpe
  have hperm := popMin_perm q e rest hpop
  have hmin := popMin_min q e rest hpop
  have hnd' : ((e :: rest).map QEntry.count).Nodup := (hperm.map QEntry.count).nodup_iff.mpr hnd
  rw [List.map_cons] at hnd'
  have hck := List.nodup_cons.mp hnd'
  have henc : ∀ x ∈ en, c ≤ x.count ∧ x.count < c' := by
    intro x hx
    have hmem : x.count ∈ en.map QEntry.count := List.mem_map_of_mem QEntry.count hx
    rw [hm, List.mem_range'_1] at hmem
    omega
  refine ⟨?_, ?_, ?_⟩
  · intro x hx
    rcases List.mem_append.mp hx with hxr | hxe
    · have hxq : x ∈ q := hperm.mem_iff.mp (List.mem_cons_of_mem e hxr)
      have hnl : keyLt (entryKey x) (entryKey e) = false := hmin x hxq
      have hne : entryKey x ≠ entryKey e := by
        intro hcon
        have hxc : x.count ∈ rest.map QEntry.count := List.mem_map_of_mem QEntry.count hxr
        have hce : x.count = e.count := congrArg Prod.snd hcon
        rw [hce] at hxc
        exact hck.1 hxc
      exact keyLt_of_ne_notlt _ _ hne hnl
    · obtain ⟨hw1, _⟩ := hw x hxe
      rw [keyLt_true_iff]
      left
      show e.weight.1 < x.weight.1
      omega
  · intro x hx
    rcases List.mem_append.mp hx with hxr | hxe
    · have hxq : x ∈ q := hperm.mem_iff.mp (List.mem_cons_of_mem e hxr)
      have := hc x hxq
      omega
    · exact (henc x hxe).2
  · rw [List.map_append]
    apply List.Nodup.append
    · exact hck.2
    · rw [hm]
      exact List.nodup_range' _ _ _ (by omega)
    · intro a har hae
      obtain ⟨xr, hxr, hxra⟩ := List.mem_map.mp har
      obtain ⟨xe, hxe, hxea⟩ := List.mem_map.mp hae
      have h1 : xr.count < c := hc xr (hperm.mem_iff.mp (List.mem_cons_of_mem e hxr))
      have h2 := (henc xe hxe).1
      omega

/-- Every priority key recorded after a pop with key above `lb` stays in
strictly ascending key order: the popped trace from any queue whose keys all
exceed `lb` is a `keyLt`-chain from `lb`. -/
theorem adaptLoopAux_chain (w : World) (offers : List Offer) (toP : Nat) :
    ∀ (fuel : Nat) (q : List QEntry) (v : List Nat) (c : Nat) (lb : (Nat × Nat) × Nat),
      (∀ x ∈ q, keyLt lb (entryKey x) = true) →
      (∀ x ∈ q, x.count < c) →
      ((q.map QEntry.count).Nodup) →
      List.Chain (fun a b => keyLt a b = true) lb
        ((adaptLoopAux w offers toP fuel q v c).2) := by
  intro fuel
  induction fuel with
  | zero =>
    intro q v c lb _ _ _
    exact List.Chain.nil
  | succ f ih =>
    intro q v c lb hlb hc hnd
    simp only [adaptLoopAux]
    cases hpop : popMin q with
    | none =>
      simp only [hpop]
      exact List.Chain.nil
    | some pr =>
      obtain ⟨e, rest⟩ := pr
      simp only [hpop]
      have heq : e ∈ q := (popMin_perm q e rest hpop).mem_iff.mp (List.mem_cons_self e rest)
      have hlbe : keyLt lb (entryKey e) = true := hlb e heq
      cases hpe : processEdges w toP e.weight e.obj
          (sortEdges w (_get_outgoing_edges w offers e.obj v)) v c with
      | inl a =>
        simp only [hpe]
        exact List.Chain.cons hlbe List.Chain.nil
      | inr t =>
        obtain ⟨en, v', c'⟩ := t
        simp only [hpe]
        obtain ⟨hst1, hst2, hst3⟩ :=
          loopStep_invariants w offers toP q v c e rest en v' c' hpop hpe hc hnd
        exact List.Chain.cons hlbe (ih (rest ++ en) v' c' (entryKey e) hst1 hst2 hst3)

/-- The pushed entries of one edge batch, exactly: pairing the fired edges
(those whose factory returned non-null) with consecutive counter values, each
pushed entry is built from its own edge — weight `(hops + 1, distance + that
edge's mro distance)`, the sequence number taken from the pairing, and that
edge's factory result as the object. -/
theorem processEdges_inr_exact (w : World) (toP : Nat) (pw : Nat × Nat) (obj : PyObj) :
    ∀ (edges : List Edge) (visited : List Nat) (counter : Nat) en v' c',
      processEdges w toP pw obj edges visited counter = .inr (en, v', c') →
      en = ((edges.filter (fun ed => decide (applyOffer w ed.offer obj ≠ PyObj.pynone))).zip
        (List.range' counter (edges.filter
          (fun ed => decide (applyOffer w ed.offer obj ≠ PyObj.pynone))).length)).map
        (fun p => ⟨(pw.1 + 1, pw.2 + p.1.dist), p.2, applyOffer w p.1.offer obj⟩) := by
  intro edges
  induction edges with
  | nil =>
    intro visited counter en v' c' h
    simp only [processEdges, Sum.inr.injEq, Prod.mk.injEq] at h
    obtain ⟨he, _, _⟩ := h
    subst he
    simp
  | cons e es ih =>
    intro visited counter en v' c' h
    simp only [processEdges] at h
    by_cases ha : applyOffer w e.offer obj = PyObj.pynone
    · rw [if_pos ha] at h
      have hfil : (e :: es).filter (fun ed => decide (applyOffer w ed.offer obj ≠ PyObj.pynone))
          = es.filter (fun ed => decide (applyOffer w ed.offer obj ≠ PyObj.pynone)) := by
        simp [List.filter_cons, ha]
      rw [hfil]
      exact ih visited counter en v' c' h
    · rw [if_neg ha] at h
      by_cases hp : provides_protocol w (typeOf (applyOffer w e.offer obj)) toP = true
      · rw [if_pos hp] at h
        exact Sum.noConfusion h
      · rw [if_neg hp] at h
        cases hrec : processEdges w toP pw obj es (visited ++ [e.idx]) (counter + 1) with
        | inl a =>
          simp only [hrec] at h
          exact Sum.noConfusion h
        | inr t =>
          obtain ⟨entries, v2, c2⟩ := t
          simp only [hrec, Sum.inr.injEq, Prod.mk.injEq] at h
          obtain ⟨hen, _, _⟩ := h
          subst hen
          have hfil : (e :: es).filter (fun ed => decide (applyOffer w ed.offer obj ≠ PyObj.pynone))
              = e :: es.filter (fun ed => decide (applyOffer w ed.offer obj ≠ PyObj.pynone)) := by
            simp [List.filter_cons, ha]
          rw [hfil, List.length_cons, List.range'_succ, List.zip_cons_cons, List.map_cons]
          rw [ih (visited ++ [e.idx]) (counter + 1) entries v2 c2 hrec]

/-- C4: frontier entries are popped in strictly ascending lexicographic order
of `((hops, cumulative distance), sequence)` — so weights are popped in
ascending lexicographic order, with FIFO tie-breaking by the strictly
increasing sequence counter assigned at push time; the initial entry has key
`((0, 0), 0)` and is popped first; each pop yields the minimum of the queue;
and the entries pushed in one iteration are exactly one per successfully
applied edge, in order, each adding `1` to the popped hop count and its own
edge's specificity distance to the popped cumulative distance, carrying that
edge's factory result and a consecutive fresh counter value assigned at push
time. -/
theorem C4_priority_order (w : World) (mgr : AdaptationManager) (o : PyObj) (C : Nat) :
    List.Chain' (fun a b => keyLt a b = true) (adaptTrace w mgr o C) ∧
    (adaptTrace w mgr o C).head? = some ((0, 0), 0) ∧
    (∀ (q : List QEntry) (m : QEntry) (rest : List QEntry), popMin q = some (m, rest) →
      m ∈ q ∧ ∀ x ∈ q, keyLt (entryKey x) (entryKey m) = false) ∧
    (∀ (pw : Nat × Nat) (obj : PyObj) (edges : List Edge) (visited : List Nat)
      (counter : Nat) en v' c',
      processEdges w C pw obj edges visited counter = .inr (en, v', c') →
      en.map QEntry.count = List.range' counter en.length ∧ c' = counter + en.length ∧
      en = ((edges.filter (fun ed => decide (applyOffer w ed.offer obj ≠ PyObj.pynone))).zip
        (List.range' counter (edges.filter
          (fun ed => decide (applyOffer w ed.offer obj ≠ PyObj.pynone))).length)).map
        (fun p => ⟨(pw.1 + 1, pw.2 + p.1.dist), p.2, applyOffer w p.1.offer obj⟩)) := by
  refine ⟨?_, ?_, ?_, ?_⟩
  · unfold adaptTrace
    simp only [adaptLoopAux, popMin]
    cases hpe : processEdges w C (0, 0) o
        (sortEdges w (_get_outgoing_edges w mgr._adaptation_offers o [])) [] 1 with
    | inl a =>
      simp only [hpe]
      exact List.chain'_singleton _
    | inr t =>
      obtain ⟨en, v', c'⟩ := t
      simp only [hpe]
      have hstep := loopStep_invariants w mgr._adaptation_offers C
        [⟨(0, 0), 0, o⟩] [] 1 ⟨(0, 0), 0, o⟩ [] en v' c' rfl hpe
        (by intro x hx; rcases List.mem_cons.mp hx with rfl | hx'
            · exact Nat.zero_lt_one
            · exact absurd hx' (List.not_mem_nil x))
        (by simp)
      simp only [List.nil_append] at hstep
      show List.Chain (fun a b => keyLt a b = true) ((0, 0), 0) _
      exact adaptLoopAux_chain w mgr._adaptation_offers C mgr._adaptation_offers.length
        en v' c' ((0, 0), 0) hstep.1 hstep.2.1 hstep.2.2
  · unfold adaptTrace
    simp only [adaptLoopAux, popMin]
    cases hpe : processEdges w C (0, 0) o
        (sortEdges w (_get_outgoing_edges w mgr._adaptation_offers o [])) [] 1 with
    | inl a =>
      simp [hpe]
      rfl
    | inr t =>
      obtain ⟨en, v', c'⟩ := t
      simp [hpe]
      rfl
  · intro q m rest hpop
    exact ⟨(popMin_perm q m rest hpop).mem_iff.mp (List.mem_cons_self m rest),
      popMin_min q m rest hpop⟩
  · intro pw obj edges visited counter en v' c' h
    obtain ⟨_, h2, h3, _, _⟩ :=
      processEdges_inr_spec w C pw obj edges visited counter en v' c' h
    exact ⟨h2, h3, processEdges_inr_exact w C pw obj edges visited counter en v' c' h⟩

theorem C4_witness :
    ([⟨(1, 0), 1, PyObj.mk 1 7⟩] : List QEntry).map QEntry.count = List.range' 1 1 ∧
    (2 : Nat) = 1 + 1 ∧
    ([⟨(1, 0), 1, PyObj.mk 1 7⟩] : List QEntry) =
      ((([⟨0, 0, ⟨some 1, 0, 3⟩⟩] : List Edge).filter
        (fun ed => decide (applyOffer wA ed.offer PyObj.pynone ≠ PyObj.pynone))).zip
        (List.range' 1 (([⟨0, 0, ⟨some 1, 0, 3⟩⟩] : List Edge).filter
          (fun ed => decide (applyOffer wA ed.offer PyObj.pynone ≠ PyObj.pynone))).length)).map
        (fun p => ⟨(0 + 1, 0 + p.1.dist), p.2, applyOffer wA p.1.offer PyObj.pynone⟩) :=
  (C4_priority_order wA mgrA PyObj.pynone 5).2.2.2 (0, 0) PyObj.pynone
    [⟨0, 0, ⟨some 1, 0, 3⟩⟩] [] 1 [⟨(1, 0), 1, PyObj.mk 1 7⟩] [0] 2 (by decide)
